import Mathlib

/-!
Verification of the portfolio analytics core (`portfolio_metrics.py`).

The engine operates column-wise on aligned panels, so a panel is embedded as a
list of instrument columns (`List (List ℚ)`); dates, where they matter, are
embedded as integer day numbers in an ascending index (`List ℤ`).  Floating
point numbers are modelled by exact rationals; a pandas `NaN` cell (missing
value produced by `pct_change`, an empty mean, a sample variance over fewer
than two rows, a zero-variance correlation) is modelled by `Option.none`, and
results that genuinely need a square root (volatility, Sharpe, correlation)
live in `ℝ`.  A lookup that raises (`.loc` with an absent key, `index[mask][0]`
on an all-false mask) is modelled by an `Option` result whose `none` stands for
the raised exception.
-/

namespace Portfolio

/-- pandas column mean: `sum / length` (the `0/0 = 0` case is never consumed:
every caller either guards emptiness explicitly or is fed a nonempty list). -/
def mean (x : List ℚ) : ℚ := x.sum / (x.length : ℚ)

/-- Deviations from the column mean, as computed inside `var`, `cov`, `corr`. -/
def demean (x : List ℚ) : List ℚ := x.map (fun z => z - mean x)

/-- Sum of squared deviations from the mean (`ssqdmx` in pandas `nancorr`). -/
def ssq (x : List ℚ) : ℚ := ((demean x).map (fun z => z * z)).sum

/-- Sum of products of deviations (`covxy` in pandas `nancorr`, and the
numerator of `Series.cov`). -/
def sxy (x y : List ℚ) : ℚ :=
  (((demean x).zip (demean y)).map (fun q => q.1 * q.2)).sum

/-- pandas sample variance `Series.var()` (ddof = 1): `NaN` — here `none` —
for fewer than two observations, else `ssq / (n - 1)`. -/
def sampleVar (x : List ℚ) : Option ℚ :=
  if x.length < 2 then none else some (ssq x / ((x.length : ℚ) - 1))

/-- pandas `Series.cov` numeric value: `sxy / (n - 1)` over the aligned pairs.
In `calculate_beta` it is only consumed when the benchmark variance is
positive, in which case at least two aligned rows exist. -/
def sampleCovVal (x y : List ℚ) : ℚ :=
  sxy x y / (((min x.length y.length : ℕ) : ℚ) - 1)

/-- One column of `calculate_returns`: `pct_change().dropna()` on a column
without missing values drops exactly the first row and yields
`p[d]/p[d-1] - 1` for every later row. -/
def retsOf : List ℚ → List ℚ
  | [] => []
  | x :: xs => (xs.zip (x :: xs)).map (fun cp => cp.1 / cp.2 - 1)

/-- `calculate_returns`: daily returns panel, column-wise. -/
def calculate_returns (cols : List (List ℚ)) : List (List ℚ) :=
  cols.map retsOf

theorem retsOf_cons_cons (x y : ℚ) (ys : List ℚ) :
    retsOf (x :: y :: ys) = (y / x - 1) :: retsOf (y :: ys) := rfl

theorem round_trip_col (xs : List ℚ) : ∀ (x : ℚ), (∀ z ∈ x :: xs, z ≠ 0) →
    some (x * ((retsOf (x :: xs)).map (fun r => 1 + r)).prod) = (x :: xs).getLast? := by
  induction xs with
  | nil => intro x _; simp [retsOf]
  | cons y ys ih =>
    intro x h0
    have hx : x ≠ 0 := h0 x (by simp)
    have h0' : ∀ z ∈ y :: ys, z ≠ 0 := fun z hz => h0 z (by simp [hz])
    rw [retsOf_cons_cons, List.getLast?_cons_cons, ← ih y h0']
    rw [List.map_cons, List.prod_cons]
    congr 1
    have h1 : (1 : ℚ) + (y / x - 1) = y / x := by ring
    rw [h1, ← mul_assoc, mul_div_cancel₀ y hx]

/-- C6 (confirmed).  Round-trip: for every instrument column of a Price Panel
with nonzero prices, the first price times the product of `1 + r` over the
column's Returns Panel entries reproduces the last price exactly. -/
theorem claim6_round_trip (cols : List (List ℚ)) (p : List ℚ) (hp : p ∈ cols)
    (hne : p ≠ []) (h0 : ∀ z ∈ p, z ≠ 0) :
    retsOf p ∈ calculate_returns cols ∧
      some (p.headI * ((retsOf p).map (fun r => 1 + r)).prod) = p.getLast? := by
  refine ⟨List.mem_map_of_mem retsOf hp, ?_⟩
  cases p with
  | nil => exact absurd rfl hne
  | cons x xs => simpa using round_trip_col xs x h0

theorem claim6_witness :
    retsOf [(2 : ℚ), 4, 2] ∈ calculate_returns [[(2 : ℚ), 4, 2]] ∧
      some (([(2 : ℚ), 4, 2] : List ℚ).headI *
        ((retsOf [(2 : ℚ), 4, 2]).map (fun r => 1 + r)).prod) =
        ([(2 : ℚ), 4, 2] : List ℚ).getLast? :=
  claim6_round_trip [[(2 : ℚ), 4, 2]] [(2 : ℚ), 4, 2] (by simp) (by simp)
    (by decide)

/-- Number of rows of the aligned panel, read off the first column (pandas
stores it as the shared index length). -/
def numRows (cols : List (List ℚ)) : ℕ := (cols.head?.map List.length).getD 0

/-- `returns_df.mean(axis=1)`: the equal-weighted row mean across instruments,
one value per row of the panel. -/
def rowMeans (cols : List (List ℚ)) (n : ℕ) : List ℚ :=
  (List.range n).map (fun k => mean (cols.map (fun c => c.getD k 0)))

/-- The benchmark series used by `calculate_beta` / `calculate_alpha`:
the caller-supplied `market_returns` if given, else the equal-weighted
row mean of the panel. -/
def benchmarkOf (cols : List (List ℚ)) (mkt : Option (List ℚ)) : List ℚ :=
  mkt.getD (rowMeans cols (numRows cols))

/-- Per-ticker body of `calculate_beta`: `cov / var` when the benchmark
variance is a number strictly greater than zero, else the `1.0` fallback
(in the float original, `NaN > 0` is false, so an undefined variance also
falls back to `1.0`). -/
def betaOf (x market : List ℚ) : ℚ :=
  match sampleVar market with
  | some v => if 0 < v then sampleCovVal x market / v else 1
  | none => 1

/-- `calculate_beta`: one beta per instrument column. -/
def calculate_beta (cols : List (List ℚ)) (mkt : Option (List ℚ)) : List ℚ :=
  cols.map (fun c => betaOf c (benchmarkOf cols mkt))

theorem calculate_beta_getD (cols : List (List ℚ)) (mkt : Option (List ℚ))
    (i : ℕ) (hi : i < cols.length) :
    (calculate_beta cols mkt).getD i 0 = betaOf (cols.getD i []) (benchmarkOf cols mkt) := by
  unfold calculate_beta
  rw [List.getD_eq_getElem?_getD, List.getElem?_map, List.getD_eq_getElem?_getD,
    List.getElem?_eq_getElem hi]
  rfl

/-- C4 (confirmed).  Beta per instrument is `cov(instrument, benchmark) /
var(benchmark)` whenever the benchmark variance is positive; the benchmark
defaults to the equal-weighted row mean when none is supplied; and a benchmark
variance of exactly 0 yields beta `1.0` instead of an error. -/
theorem claim4_beta_formula (cols : List (List ℚ)) (mkt : Option (List ℚ))
    (i : ℕ) (hi : i < cols.length) (v : ℚ)
    (hv : sampleVar (benchmarkOf cols mkt) = some v) :
    benchmarkOf cols none = rowMeans cols (numRows cols) ∧
      (0 < v → (calculate_beta cols mkt).getD i 0 =
        sampleCovVal (cols.getD i []) (benchmarkOf cols mkt) / v) ∧
      (v = 0 → (calculate_beta cols mkt).getD i 0 = 1) := by
  refine ⟨rfl, ?_, ?_⟩
  · intro hpos
    rw [calculate_beta_getD cols mkt i hi]
    unfold betaOf
    rw [hv]
    simp [hpos]
  · intro h0
    rw [calculate_beta_getD cols mkt i hi]
    unfold betaOf
    rw [hv, h0]
    norm_num

theorem claim4_witness :
    (calculate_beta [[1/10, 1/5], [3/10, 1/2]] none).getD 0 0 = 2/3 := by
  have h := claim4_beta_formula [[1/10, 1/5], [3/10, 1/2]] none 0 (by decide)
    (9/800) (by norm_num [sampleVar, benchmarkOf, rowMeans, numRows, mean,
      demean, ssq, List.range_succ])
  rw [h.2.1 (by norm_num)]
  norm_num [sampleCovVal, benchmarkOf, rowMeans, numRows, mean, demean, sxy,
    List.range_succ, List.getD]

/-- C8 (confirmed).  The beta fallback is broader than "variance exactly 0":
whenever the benchmark variance is not a strictly positive number — including
the undefined (`NaN`) variance of a one-row panel — every instrument's beta is
`1.0`. -/
theorem claim8_beta_fallback :
    (∀ (cols : List (List ℚ)) (m : List ℚ),
        (∀ v, sampleVar m = some v → ¬ 0 < v) →
        calculate_beta cols (some m) = List.replicate cols.length 1) ∧
    (∀ cols : List (List ℚ), (∀ c ∈ cols, c.length = 1) →
        calculate_beta cols none = List.replicate cols.length 1) := by
  constructor
  · intro cols m hm
    have hlen : (calculate_beta cols (some m)).length = cols.length := by
      simp [calculate_beta]
    rw [← hlen, List.eq_replicate_length]
    intro b hb
    obtain ⟨c, _, rfl⟩ := List.mem_map.mp hb
    show betaOf c (benchmarkOf cols (some m)) = 1
    have hbm : benchmarkOf cols (some m) = m := rfl
    rw [hbm]
    unfold betaOf
    cases hsv : sampleVar m with
    | none => rfl
    | some v => simp [hm v hsv]
  · intro cols hone
    have hlen : (calculate_beta cols none).length = cols.length := by
      simp [calculate_beta]
    rw [← hlen, List.eq_replicate_length]
    intro b hb
    obtain ⟨c, hc, rfl⟩ := List.mem_map.mp hb
    show betaOf c (benchmarkOf cols none) = 1
    have hnum : (benchmarkOf cols none).length < 2 := by
      cases cols with
      | nil => simp [benchmarkOf, rowMeans, numRows]
      | cons c0 t =>
        have : numRows (c0 :: t) = 1 := by
          simp [numRows, hone c0 (by simp)]
        simp [benchmarkOf, rowMeans, this]
    unfold betaOf
    rw [sampleVar, if_pos hnum]

theorem claim8_witness :
    calculate_beta [[(5 : ℚ)]] (some [3, 3]) = [1] ∧
      calculate_beta [[(4 : ℚ)], [7]] none = [1, 1] := by
  constructor
  · have h := claim8_beta_fallback.1 [[(5 : ℚ)]] [3, 3] ?_
    · simpa using h
    · intro v hv
      have h0 : sampleVar [(3 : ℚ), 3] = some 0 := by
        norm_num [sampleVar, ssq, demean, mean]
      rw [h0] at hv
      cases hv
      norm_num
  · have h := claim8_beta_fallback.2 [[(4 : ℚ)], [7]] (by decide)
    simpa using h

/-- Per-ticker body of `calculate_annualized_return`:
`mean(daily_return) * 252 * 100`; the mean of a zero-row column is `NaN`. -/
def annualizedOf (x : List ℚ) : Option ℚ :=
  if x.length = 0 then none else some (mean x * 252 * 100)

/-- `calculate_annualized_return`, column-wise. -/
def calculate_annualized_return (cols : List (List ℚ)) : List (Option ℚ) :=
  cols.map annualizedOf

/-- Per-ticker body of `calculate_volatility`:
`std(daily_return) * sqrt(252) * 100`, with the sample standard deviation
`sqrt(var)`; `NaN` (here `none`) when the variance is undefined. -/
noncomputable def volatilityOf (x : List ℚ) : Option ℝ :=
  (sampleVar x).map (fun (v : ℚ) => Real.sqrt (v : ℝ) * Real.sqrt 252 * 100)

/-- `calculate_volatility`, column-wise. -/
noncomputable def calculate_volatility (cols : List (List ℚ)) : List (Option ℝ) :=
  cols.map volatilityOf

/-- Per-ticker body of `calculate_sharpe_ratio`.  The source tests
`annualized_vol[ticker] > 0`; over the reals the annualized volatility
`sqrt(v) * sqrt(252) * 100` is positive iff the sample variance `v` is
positive, and the float comparison is false when the volatility is `NaN`
(variance undefined), so the guard is expressed by the equivalent decidable
test on `sampleVar`. -/
noncomputable def sharpeOf (x : List ℚ) (rf : ℚ) : ℝ :=
  match sampleVar x with
  | some v =>
    if 0 < v then
      (((mean x - rf / 252) * 252 * 100 : ℚ) : ℝ) /
        (Real.sqrt (v : ℝ) * Real.sqrt 252 * 100)
    else 0
  | none => 0

/-- `calculate_sharpe_ratio`, column-wise (annual risk-free default 0.02). -/
noncomputable def calculate_sharpe (cols : List (List ℚ)) (rf : ℚ) : List ℝ :=
  cols.map (fun c => sharpeOf c rf)

/-- pandas `Series.quantile(q)` with linear interpolation between order
statistics: on the sorted values, position `h = (n-1)q`, value
`s[⌊h⌋] + (h - ⌊h⌋) * (s[⌊h⌋+1] - s[⌊h⌋])`; `NaN` on an empty column. -/
def quantileOf (x : List ℚ) (q : ℚ) : Option ℚ :=
  if x.length = 0 then none
  else
    let s := List.insertionSort (· ≤ ·) x
    let h : ℚ := ((x.length : ℚ) - 1) * q
    let j : ℕ := (⌊h⌋).toNat
    let base := s.getD j 0
    some (base + (h - (j : ℚ)) * (s.getD (j + 1) base - base))

/-- `calculate_var`: the `(1 - confidence)` quantile of each column, as a
percentage. -/
def calculate_var (cols : List (List ℚ)) (conf : ℚ) : List (Option ℚ) :=
  cols.map (fun c => (quantileOf c (1 - conf)).map (fun z => z * 100))

/-- Per-ticker body of `calculate_alpha`: CAPM residual
`annualized - (rf*100 + beta * (market_annualized - rf*100))`; `NaN` as soon
as the instrument's annualized return or the benchmark's is `NaN`. -/
def alphaOf (x : List ℚ) (b : ℚ) (mAnn : Option ℚ) (rf : ℚ) : Option ℚ :=
  match annualizedOf x, mAnn with
  | some a, some ma => some (a - (rf * 100 + b * (ma - rf * 100)))
  | _, _ => none

/-- `calculate_alpha`: alphas against the supplied betas and benchmark
(default benchmark: equal-weighted row mean; its annualized return is `NaN`
when the benchmark series is empty). -/
def calculate_alpha (cols : List (List ℚ)) (betas : List ℚ)
    (mkt : Option (List ℚ)) (rf : ℚ) : List (Option ℚ) :=
  let m := benchmarkOf cols mkt
  let mAnn : Option ℚ := if m.length = 0 then none else some (mean m * 252 * 100)
  (cols.zip betas).map (fun cb => alphaOf cb.1 cb.2 mAnn rf)

theorem sharpeOf_eq (x : List ℚ) (rf : ℚ) (v : ℚ) (hv : sampleVar x = some v) :
    sharpeOf x rf =
      if 0 < v then
        (((mean x - rf / 252) * 252 * 100 : ℚ) : ℝ) /
          (Real.sqrt (v : ℝ) * Real.sqrt 252 * 100)
      else 0 := by
  unfold sharpeOf
  rw [hv]

/-- C5 (confirmed).  Sharpe per instrument is
`((mean - rf/252) * 252 * 100) / annualized_volatility` whenever the
annualized volatility is positive, and exactly 0 (not `NaN`, infinite or an
error) whenever the annualized volatility is 0. -/
theorem claim5_sharpe_formula (x : List ℚ) (rf : ℚ) (w : ℝ)
    (hw : volatilityOf x = some w) :
    (0 < w → sharpeOf x rf = (((mean x - rf / 252) * 252 * 100 : ℚ) : ℝ) / w) ∧
      (w = 0 → sharpeOf x rf = 0) := by
  unfold volatilityOf at hw
  rw [Option.map_eq_some'] at hw
  obtain ⟨v, hv, hfv⟩ := hw
  constructor
  · intro hw0
    have hv0 : 0 < v := by
      by_contra hle
      have hle' : (v : ℝ) ≤ 0 := by exact_mod_cast not_lt.mp hle
      have : Real.sqrt (v : ℝ) = 0 := Real.sqrt_eq_zero'.mpr hle'
      rw [← hfv, this] at hw0
      norm_num at hw0
    rw [sharpeOf_eq x rf v hv, if_pos hv0, hfv]
  · intro hw0
    have hv0 : ¬ 0 < v := by
      intro hpos
      have h1 : 0 < Real.sqrt (v : ℝ) := Real.sqrt_pos.mpr (by exact_mod_cast hpos)
      have h2 : 0 < Real.sqrt (252 : ℝ) := Real.sqrt_pos.mpr (by norm_num)
      have : (0 : ℝ) < Real.sqrt (v : ℝ) * Real.sqrt 252 * 100 := by positivity
      rw [hfv, hw0] at this
      exact lt_irrefl 0 this
    rw [sharpeOf_eq x rf v hv, if_neg hv0]

theorem claim5_witness :
    sharpeOf [1, 2, -3] (1/50) =
      (((mean [1, 2, -3] - (1/50) / 252) * 252 * 100 : ℚ) : ℝ) / 4200 := by
  have hvar : sampleVar [(1 : ℚ), 2, -3] = some 7 := by
    norm_num [sampleVar, ssq, demean, mean]
  have hw : volatilityOf [(1 : ℚ), 2, -3] = some 4200 := by
    unfold volatilityOf
    rw [hvar]
    have hs : Real.sqrt ((7 : ℚ) : ℝ) * Real.sqrt 252 = 42 := by
      rw [← Real.sqrt_mul (by norm_num : ((0 : ℝ) ≤ ((7 : ℚ) : ℝ)))]
      have h1764 : ((7 : ℚ) : ℝ) * 252 = 42 ^ 2 := by norm_num
      rw [h1764, Real.sqrt_sq (by norm_num : (0 : ℝ) ≤ 42)]
    simp only [Option.map_some']
    rw [hs]
    norm_num
  exact (claim5_sharpe_formula [1, 2, -3] (1/50) 4200 hw).1 (by norm_num)

theorem map_eq_replicate_of_forall {α β : Type} (l : List α) (f : α → β) (b : β)
    (h : ∀ a ∈ l, f a = b) : l.map f = List.replicate l.length b := by
  have hlen : (l.map f).length = l.length := by simp
  rw [← hlen, List.eq_replicate_length]
  intro z hz
  obtain ⟨a, ha, rfl⟩ := List.mem_map.mp hz
  exact h a ha

/-- C7 (corrected).  For a panel with zero instruments every metric-engine
function returns the empty mapping; but for a panel with instruments and zero
rows (e.g. returns of a one-row price panel) none of them raises and none of
them returns an empty mapping: each returns one entry per instrument — the
fallback `1.0` for beta, `0` for Sharpe, and `NaN` (`none`) for annualized
return, volatility, VaR and alpha. -/
theorem claim7_empty_panel_amended (cols : List (List ℚ)) (rf conf : ℚ)
    (hz : ∀ c ∈ cols, c = []) :
    calculate_annualized_return cols = List.replicate cols.length none ∧
      calculate_volatility cols = List.replicate cols.length none ∧
      calculate_beta cols none = List.replicate cols.length 1 ∧
      calculate_var cols conf = List.replicate cols.length none ∧
      calculate_sharpe cols rf = List.replicate cols.length 0 ∧
      calculate_alpha cols (calculate_beta cols none) none rf =
        List.replicate cols.length none ∧
      (cols = [] →
        calculate_annualized_return cols = [] ∧ calculate_volatility cols = [] ∧
        calculate_beta cols none = [] ∧ calculate_var cols conf = [] ∧
        calculate_sharpe cols rf = [] ∧
        calculate_alpha cols (calculate_beta cols none) none rf = []) := by
  have hbench : benchmarkOf cols none = [] := by
    cases cols with
    | nil => rfl
    | cons c t =>
      have h0 : numRows (c :: t) = 0 := by
        simp [numRows, hz c (by simp)]
      simp [benchmarkOf, h0, rowMeans]
  have hann : calculate_annualized_return cols = List.replicate cols.length none := by
    apply map_eq_replicate_of_forall
    intro c hc
    rw [hz c hc]
    rfl
  have hvol : calculate_volatility cols = List.replicate cols.length none := by
    apply map_eq_replicate_of_forall
    intro c hc
    rw [hz c hc]
    rfl
  have hbeta : calculate_beta cols none = List.replicate cols.length 1 := by
    apply map_eq_replicate_of_forall
    intro c hc
    rw [hbench]
    rfl
  have hvar : calculate_var cols conf = List.replicate cols.length none := by
    apply map_eq_replicate_of_forall
    intro c hc
    rw [hz c hc]
    rfl
  have hsharpe : calculate_sharpe cols rf = List.replicate cols.length 0 := by
    apply map_eq_replicate_of_forall
    intro c hc
    rw [hz c hc]
    rfl
  have halpha : calculate_alpha cols (calculate_beta cols none) none rf =
      List.replicate cols.length none := by
    unfold calculate_alpha
    have hlen : (cols.zip (calculate_beta cols none)).length = cols.length := by
      simp [calculate_beta]
    rw [← hlen]
    apply map_eq_replicate_of_forall
    intro cb hcb
    have hc : cb.1 ∈ cols := (List.of_mem_zip hcb).1
    have : cb.1 = [] := hz cb.1 hc
    unfold alphaOf
    rw [this]
    rfl
  exact ⟨hann, hvol, hbeta, hvar, hsharpe, halpha, by
    intro h
    subst h
    simp at hann hvol hbeta hvar hsharpe halpha
    exact ⟨hann, hvol, hbeta, hvar, hsharpe, halpha⟩⟩

theorem claim7_witness :
    calculate_beta [[], []] none = [1, 1] ∧
      calculate_sharpe [[], []] (1/50) = [0, 0] ∧
      calculate_annualized_return [[], []] = [none, none] := by
  have h := claim7_empty_panel_amended [[], []] (1/50) (19/20) (by simp)
  exact ⟨by simpa using h.2.2.1, by simpa using h.2.2.2.2.1, by simpa using h.1⟩

/-- C7 counterexample: a Returns Panel with one instrument and zero rows is an
"empty panel" in the claim's sense, yet `calculate_beta` returns the non-empty
mapping `[1.0]` rather than an empty one. -/
theorem claim7_zero_rows_counterexample :
    calculate_beta [[]] none = [1] ∧ ([1] : List ℚ) ≠ [] := by
  constructor
  · rfl
  · simp

/-- pandas `pct_change()` on a full price column: the first row has no prior
value and is `NaN`; every later row carries the daily return `retsOf`. -/
def pctChangeOpt : List ℚ → List (Option ℚ)
  | [] => []
  | x :: xs => none :: (retsOf (x :: xs)).map some

/-- pandas `cumprod()` with its default `skipna=True`: a missing cell stays
missing in the output but does not enter the running product. -/
def cumprodSkipna (acc : ℚ) : List (Option ℚ) → List (Option ℚ)
  | [] => []
  | none :: rest => none :: cumprodSkipna acc rest
  | some z :: rest => some (acc * z) :: cumprodSkipna (acc * z) rest

/-- pandas `expanding().max()`: running maximum over the non-missing prefix,
missing while no observation has been seen yet. -/
def expandingMax (acc : Option ℚ) : List (Option ℚ) → List (Option ℚ)
  | [] => []
  | none :: rest => acc :: expandingMax acc rest
  | some z :: rest =>
    match acc with
    | none => some z :: expandingMax (some z) rest
    | some a => some (max a z) :: expandingMax (some (max a z)) rest

/-- One cell of `(cumulative - running_max) / running_max * 100`; `NaN`
propagates through the arithmetic.  (A zero running maximum cannot occur for
positive prices, so the `0/0` float case is unreachable.) -/
def ddCell : Option ℚ × Option ℚ → Option ℚ
  | (some c, some m) => some ((c - m) / m * 100)
  | _ => none

/-- `cumulative = (1 + prices.pct_change()).cumprod()`, one column. -/
def cumCol (p : List ℚ) : List (Option ℚ) :=
  cumprodSkipna 1 ((pctChangeOpt p).map (Option.map (fun r => 1 + r)))

/-- `running_max = cumulative.expanding().max()`, one column. -/
def runMaxCol (p : List ℚ) : List (Option ℚ) := expandingMax none (cumCol p)

/-- One column of `calculate_drawdown`. -/
def calculate_drawdown_col (p : List ℚ) : List (Option ℚ) :=
  ((cumCol p).zip (runMaxCol p)).map ddCell

/-- `calculate_drawdown`, column-wise on the Price Panel. -/
def calculate_drawdown (cols : List (List ℚ)) : List (List (Option ℚ)) :=
  cols.map calculate_drawdown_col

/-- Running product over the defined (non-first) cells. -/
def scanProd (a : ℚ) : List ℚ → List ℚ
  | [] => []
  | z :: zs => (a * z) :: scanProd (a * z) zs

/-- Running maximum seeded with `a`. -/
def scanMaxFrom (a : ℚ) : List ℚ → List ℚ
  | [] => []
  | z :: zs => max a z :: scanMaxFrom (max a z) zs

/-- Running maximum of a list, seeded with its own first element. -/
def runMaxP : List ℚ → List ℚ
  | [] => []
  | z :: zs => z :: scanMaxFrom z zs

theorem cumprodSkipna_map_some (l : List ℚ) : ∀ a : ℚ,
    cumprodSkipna a (l.map some) = (scanProd a l).map some := by
  induction l with
  | nil => intro a; rfl
  | cons z zs ih => intro a; simp [cumprodSkipna, scanProd, ih]

theorem expandingMax_some_map (l : List ℚ) : ∀ a : ℚ,
    expandingMax (some a) (l.map some) = (scanMaxFrom a l).map some := by
  induction l with
  | nil => intro a; rfl
  | cons z zs ih => intro a; simp [expandingMax, scanMaxFrom, ih]

theorem expandingMax_none_map (l : List ℚ) :
    expandingMax none (l.map some) = (runMaxP l).map some := by
  cases l with
  | nil => rfl
  | cons z zs => simp [expandingMax, runMaxP, expandingMax_some_map]

/-- The pure tail of the cumulative-return index of a nonempty column. -/
def cumP (p : List ℚ) : List ℚ :=
  scanProd 1 ((retsOf p).map (fun r => 1 + r))

theorem cumCol_cons (x : ℚ) (xs : List ℚ) :
    cumCol (x :: xs) = none :: (cumP (x :: xs)).map some := by
  unfold cumCol cumP pctChangeOpt
  rw [List.map_cons]
  show cumprodSkipna 1 (none :: _) = _
  rw [List.map_map]
  show none :: cumprodSkipna 1 _ = _
  rw [show ((retsOf (x :: xs)).map (Option.map (fun r => 1 + r) ∘ some)) =
    ((retsOf (x :: xs)).map (fun r => 1 + r)).map some by simp]
  rw [cumprodSkipna_map_some]

theorem runMaxCol_cons (x : ℚ) (xs : List ℚ) :
    runMaxCol (x :: xs) = none :: (runMaxP (cumP (x :: xs))).map some := by
  unfold runMaxCol
  rw [cumCol_cons]
  show none :: expandingMax none _ = _
  rw [expandingMax_none_map]

theorem drawdown_col_cons (x : ℚ) (xs : List ℚ) :
    calculate_drawdown_col (x :: xs) =
      none :: ((cumP (x :: xs)).zip (runMaxP (cumP (x :: xs)))).map
        (fun cm => some ((cm.1 - cm.2) / cm.2 * 100)) := by
  unfold calculate_drawdown_col
  rw [cumCol_cons, runMaxCol_cons, List.zip_cons_cons, List.zip_map,
    List.map_cons, List.map_map]
  have hfun : (ddCell ∘ Prod.map some some) =
      (fun cm : ℚ × ℚ => some ((cm.1 - cm.2) / cm.2 * 100)) := by
    funext q
    obtain ⟨a, b⟩ := q
    rfl
  rw [hfun]
  rfl

theorem zip_scanMaxFrom_le (l : List ℚ) : ∀ a : ℚ,
    ∀ q ∈ l.zip (scanMaxFrom a l), q.1 ≤ q.2 := by
  induction l with
  | nil => intro a q hq; simp at hq
  | cons z zs ih =>
    intro a q hq
    rw [scanMaxFrom, List.zip_cons_cons, List.mem_cons] at hq
    rcases hq with h | h
    · rw [h]; exact le_max_right a z
    · exact ih (max a z) q h

theorem zip_runMaxP_le (l : List ℚ) : ∀ q ∈ l.zip (runMaxP l), q.1 ≤ q.2 := by
  cases l with
  | nil => intro q hq; simp at hq
  | cons z zs =>
    intro q hq
    rw [runMaxP, List.zip_cons_cons, List.mem_cons] at hq
    rcases hq with h | h
    · rw [h]
    · exact zip_scanMaxFrom_le zs z q h

theorem scanMaxFrom_pos (l : List ℚ) : ∀ a : ℚ, (∀ z ∈ l, 0 < z) →
    ∀ m ∈ scanMaxFrom a l, 0 < m := by
  induction l with
  | nil => intro a _ m hm; simp [scanMaxFrom] at hm
  | cons z zs ih =>
    intro a hl m hm
    rw [scanMaxFrom, List.mem_cons] at hm
    rcases hm with h | h
    · rw [h]
      exact lt_of_lt_of_le (hl z (by simp)) (le_max_right a z)
    · exact ih (max a z) (fun y hy => hl y (by simp [hy])) m h

theorem runMaxP_pos (l : List ℚ) (hl : ∀ z ∈ l, 0 < z) :
    ∀ m ∈ runMaxP l, 0 < m := by
  cases l with
  | nil => intro m hm; simp [runMaxP] at hm
  | cons z zs =>
    intro m hm
    rw [runMaxP, List.mem_cons] at hm
    rcases hm with h | h
    · rw [h]; exact hl z (by simp)
    · exact scanMaxFrom_pos zs z (fun y hy => hl y (by simp [hy])) m h

theorem scanProd_pos (l : List ℚ) : ∀ a : ℚ, 0 < a → (∀ z ∈ l, 0 < z) →
    ∀ y ∈ scanProd a l, 0 < y := by
  induction l with
  | nil => intro a _ _ y hy; simp [scanProd] at hy
  | cons z zs ih =>
    intro a ha hl y hy
    rw [scanProd, List.mem_cons] at hy
    have haz : 0 < a * z := mul_pos ha (hl z (by simp))
    rcases hy with h | h
    · rw [h]; exact haz
    · exact ih (a * z) haz (fun u hu => hl u (by simp [hu])) y h

theorem retsOf_one_plus_pos (p : List ℚ) (hp : ∀ z ∈ p, 0 < z) :
    ∀ r ∈ retsOf p, 0 < 1 + r := by
  cases p with
  | nil => intro r hr; simp [retsOf] at hr
  | cons x xs =>
    intro r hr
    rw [retsOf, List.mem_map] at hr
    obtain ⟨cp, hcp, rfl⟩ := hr
    have h1 : cp.1 ∈ xs := (List.of_mem_zip hcp).1
    have h2 : cp.2 ∈ x :: xs := (List.of_mem_zip hcp).2
    have : (0 : ℚ) < cp.1 / cp.2 :=
      div_pos (hp cp.1 (by simp [h1])) (hp cp.2 h2)
    linarith

theorem cumP_pos (p : List ℚ) (hp : ∀ z ∈ p, 0 < z) :
    ∀ y ∈ cumP p, 0 < y := by
  intro y hy
  refine scanProd_pos _ 1 one_pos ?_ y hy
  intro z hz
  rw [List.mem_map] at hz
  obtain ⟨r, hr, rfl⟩ := hz
  exact retsOf_one_plus_pos p hp r hr

theorem lenScanProd (l : List ℚ) : ∀ a : ℚ, (scanProd a l).length = l.length := by
  induction l with
  | nil => intro a; rfl
  | cons z zs ih => intro a; simp [scanProd, ih]

theorem lenScanMaxFrom (l : List ℚ) : ∀ a : ℚ,
    (scanMaxFrom a l).length = l.length := by
  induction l with
  | nil => intro a; rfl
  | cons z zs ih => intro a; simp [scanMaxFrom, ih]

theorem lenRets (x : ℚ) (xs : List ℚ) :
    (retsOf (x :: xs)).length = xs.length := by
  rw [retsOf, List.length_map, List.length_zip]
  simp

theorem getElem?_zip_pair {α β : Type} (l1 : List α) (l2 : List β) (k : ℕ)
    (a : α) (b : β) (h1 : l1[k]? = some a) (h2 : l2[k]? = some b) :
    (l1.zip l2)[k]? = some (a, b) :=
  List.getElem?_zip_eq_some.mpr ⟨h1, h2⟩

/-- C1 (corrected).  For a positive-price column: every defined drawdown cell
is `≤ 0`; every cell from the second row on is defined; the drawdown is
exactly 0 wherever the cumulative index equals its running maximum; but the
first row is `NaN` (missing), not 0 — `pct_change` leaves the first row `NaN`,
`1 + NaN` stays `NaN`, and `cumprod`/`expanding().max()` keep it missing, so
the code never materialises the `cum[first] = 1` of the spec. -/
theorem claim1_drawdown_amended (p : List ℚ) (hne : p ≠ [])
    (hpos : ∀ z ∈ p, 0 < z) :
    (calculate_drawdown_col p).head? = some none ∧
      (∀ v : ℚ, some v ∈ calculate_drawdown_col p → v ≤ 0) ∧
      (∀ k : ℕ, 1 ≤ k → k < p.length →
        ∃ v : ℚ, (calculate_drawdown_col p)[k]? = some (some v)) ∧
      (∀ (k : ℕ) (c m : ℚ), (cumCol p)[k]? = some (some c) →
        (runMaxCol p)[k]? = some (some m) → c = m →
        (calculate_drawdown_col p)[k]? = some (some 0)) := by
  obtain ⟨x, xs, rfl⟩ : ∃ x xs, p = x :: xs := by
    cases p with
    | nil => exact absurd rfl hne
    | cons x xs => exact ⟨x, xs, rfl⟩
  have hc := cumP_pos (x :: xs) hpos
  refine ⟨by rw [drawdown_col_cons]; rfl, ?_, ?_, ?_⟩
  · intro v hv
    rw [drawdown_col_cons, List.mem_cons] at hv
    rcases hv with h | h
    · exact absurd h.symm (by simp)
    · rw [List.mem_map] at h
      obtain ⟨cm, hcm, hv⟩ := h
      have hle : cm.1 ≤ cm.2 := zip_runMaxP_le _ cm hcm
      have hm : 0 < cm.2 :=
        runMaxP_pos _ hc cm.2 (List.of_mem_zip hcm).2
      have hval : v = (cm.1 - cm.2) / cm.2 * 100 := by
        injection hv.symm
      rw [hval]
      apply mul_nonpos_iff.mpr
      refine Or.inr ⟨?_, by norm_num⟩
      apply div_nonpos_of_nonpos_of_nonneg (by linarith) hm.le
  · intro k hk1 hklen
    obtain ⟨j, rfl⟩ : ∃ j, k = j + 1 := ⟨k - 1, by omega⟩
    have hlenc : (cumP (x :: xs)).length = xs.length := by
      unfold cumP
      rw [lenScanProd, List.length_map, lenRets]
    have hlenm : (runMaxP (cumP (x :: xs))).length = (cumP (x :: xs)).length := by
      cases h : cumP (x :: xs) with
      | nil => rfl
      | cons z zs => simp [runMaxP, lenScanMaxFrom]
    have hjz : j < ((cumP (x :: xs)).zip (runMaxP (cumP (x :: xs)))).length := by
      rw [List.length_zip, hlenm, hlenc]
      simp at hklen
      omega
    have hjm : j < (((cumP (x :: xs)).zip (runMaxP (cumP (x :: xs)))).map
        (fun cm => some ((cm.1 - cm.2) / cm.2 * 100))).length := by
      rw [List.length_map]; exact hjz
    refine ⟨(fun cm => (cm.1 - cm.2) / cm.2 * 100)
      (((cumP (x :: xs)).zip (runMaxP (cumP (x :: xs)))).get ⟨j, hjz⟩), ?_⟩
    rw [drawdown_col_cons, List.getElem?_cons_succ,
      List.getElem?_eq_getElem hjm, List.getElem_map]
    rfl
  · intro k c m hcum hmax heq
    cases k with
    | zero =>
      rw [cumCol_cons] at hcum
      simp at hcum
    | succ j =>
      rw [cumCol_cons] at hcum
      rw [runMaxCol_cons] at hmax
      rw [List.getElem?_cons_succ] at hcum hmax
      rw [List.getElem?_map] at hcum hmax
      rw [drawdown_col_cons, List.getElem?_cons_succ, List.getElem?_map]
      cases h1 : (cumP (x :: xs))[j]? with
      | none => rw [h1] at hcum; simp at hcum
      | some c' =>
        cases h2 : (runMaxP (cumP (x :: xs)))[j]? with
        | none => rw [h2] at hmax; simp at hmax
        | some m' =>
          rw [h1] at hcum
          rw [h2] at hmax
          simp at hcum hmax
          rw [getElem?_zip_pair _ _ j c' m' h1 h2]
          rw [hcum, hmax, heq]
          simp

/-- C1 counterexample: for the constant-price column `[1, 1]` (or any column)
the first drawdown cell is the missing value `NaN`, not the `0` the claim
derives from `cum[first] = 1`. -/
theorem claim1_first_row_counterexample :
    (calculate_drawdown_col [(1 : ℚ), 1]).head? ≠ some (some 0) := by
  rw [drawdown_col_cons]
  simp

theorem claim1_witness :
    (calculate_drawdown_col [(4 : ℚ), 2, 3]).head? = some none :=
  (claim1_drawdown_amended [(4 : ℚ), 2, 3] (by simp) (by decide)).1

theorem retsOf_scale (k : ℚ) (hk : k ≠ 0) (p : List ℚ) :
    retsOf (p.map (fun z => k * z)) = retsOf p := by
  cases p with
  | nil => rfl
  | cons x xs =>
    rw [List.map_cons]
    show ((xs.map (fun z => k * z)).zip ((k * x) :: xs.map (fun z => k * z))).map
        (fun cp => cp.1 / cp.2 - 1) =
      (xs.zip (x :: xs)).map (fun cp => cp.1 / cp.2 - 1)
    rw [show ((k * x) :: xs.map (fun z => k * z)) =
      (x :: xs).map (fun z => k * z) from rfl]
    rw [List.zip_map, List.map_map]
    apply List.map_congr_left
    intro q _
    show (k * q.1) / (k * q.2) - 1 = q.1 / q.2 - 1
    rw [mul_div_mul_left q.1 q.2 hk]

theorem pctChangeOpt_scale (k : ℚ) (hk : k ≠ 0) (p : List ℚ) :
    pctChangeOpt (p.map (fun z => k * z)) = pctChangeOpt p := by
  cases p with
  | nil => rfl
  | cons x xs =>
    rw [List.map_cons]
    show none :: (retsOf ((k * x) :: xs.map (fun z => k * z))).map some =
      none :: (retsOf (x :: xs)).map some
    rw [show ((k * x) :: xs.map (fun z => k * z)) =
      (x :: xs).map (fun z => k * z) from rfl]
    rw [retsOf_scale k hk]

theorem drawdown_col_scale (k : ℚ) (hk : k ≠ 0) (p : List ℚ) :
    calculate_drawdown_col (p.map (fun z => k * z)) = calculate_drawdown_col p := by
  unfold calculate_drawdown_col runMaxCol cumCol
  rw [pctChangeOpt_scale k hk]

/-- C9 (confirmed).  Drawdown is scale-invariant: multiplying every price of
the panel by a positive constant leaves the Drawdown Panel unchanged (the
daily return `(k·a)/(k·b) - 1` is unchanged and everything downstream only
depends on the returns). -/
theorem claim9_drawdown_scale_invariance (cols : List (List ℚ)) (k : ℚ)
    (hk : 0 < k) :
    calculate_drawdown (cols.map (fun c => c.map (fun z => k * z))) =
      calculate_drawdown cols := by
  unfold calculate_drawdown
  rw [List.map_map]
  apply List.map_congr_left
  intro c _
  exact drawdown_col_scale k (ne_of_gt hk) c

theorem claim9_witness :
    calculate_drawdown ([[(1 : ℚ), 2]].map (fun c => c.map (fun z => 2 * z))) =
      calculate_drawdown [[(1 : ℚ), 2]] :=
  claim9_drawdown_scale_invariance [[(1 : ℚ), 2]] 2 (by norm_num)

theorem sum_sq_nonneg (l : List ℚ) : 0 ≤ (l.map (fun z => z * z)).sum := by
  induction l with
  | nil => simp
  | cons z zs ih =>
    simp only [List.map_cons, List.sum_cons]
    nlinarith [mul_self_nonneg z]

theorem pairs_fst_sq_nonneg (l : List (ℚ × ℚ)) :
    0 ≤ (l.map (fun q => q.1 * q.1)).sum := by
  induction l with
  | nil => simp
  | cons q t ih =>
    simp only [List.map_cons, List.sum_cons]
    nlinarith [mul_self_nonneg q.1]

theorem pairs_snd_sq_nonneg (l : List (ℚ × ℚ)) :
    0 ≤ (l.map (fun q => q.2 * q.2)).sum := by
  induction l with
  | nil => simp
  | cons q t ih =>
    simp only [List.map_cons, List.sum_cons]
    nlinarith [mul_self_nonneg q.2]

/-- Cauchy–Schwarz for a list of pairs, proved by induction. -/
theorem list_cauchy (l : List (ℚ × ℚ)) :
    ((l.map (fun q => q.1 * q.2)).sum) ^ 2 ≤
      ((l.map (fun q => q.1 * q.1)).sum) * ((l.map (fun q => q.2 * q.2)).sum) := by
  induction l with
  | nil => simp
  | cons q t ih =>
    obtain ⟨a, b⟩ := q
    simp only [List.map_cons, List.sum_cons]
    set S := (t.map (fun q => q.1 * q.2)).sum with hS
    set A := (t.map (fun q => q.1 * q.1)).sum with hA
    set B := (t.map (fun q => q.2 * q.2)).sum with hB
    have hA0 : 0 ≤ A := pairs_fst_sq_nonneg t
    have hB0 : 0 ≤ B := pairs_snd_sq_nonneg t
    rcases eq_or_lt_of_le hA0 with hA' | hA'
    · have h1 : S ^ 2 ≤ 0 := by
        rw [← hA'] at ih
        simpa using ih
      have hS0 : S = 0 := by nlinarith [sq_nonneg S]
      rw [hS0, ← hA']
      nlinarith [sq_nonneg (a * b), mul_nonneg (mul_self_nonneg a) hB0]
    · have key : A * ((a * a + A) * (b * b + B) - (a * b + S) ^ 2) =
        (a * S - b * A) ^ 2 + (a * a + A) * (A * B - S ^ 2) := by ring
      nlinarith [key, sq_nonneg (a * S - b * A),
        mul_nonneg (by nlinarith [mul_self_nonneg a] : (0 : ℚ) ≤ a * a + A)
          (by nlinarith [ih] : (0 : ℚ) ≤ A * B - S ^ 2), hA']

theorem zip_fst_sq_le (l1 : List ℚ) : ∀ l2 : List ℚ,
    ((l1.zip l2).map (fun q => q.1 * q.1)).sum ≤ (l1.map (fun z => z * z)).sum := by
  induction l1 with
  | nil => intro l2; simp
  | cons x xs ih =>
    intro l2
    cases l2 with
    | nil => simpa using sum_sq_nonneg (x :: xs)
    | cons y ys =>
      rw [List.zip_cons_cons, List.map_cons, List.map_cons, List.sum_cons,
        List.sum_cons]
      exact add_le_add_left (ih ys) _

theorem zip_snd_sq_le (l1 : List ℚ) : ∀ l2 : List ℚ,
    ((l1.zip l2).map (fun q => q.2 * q.2)).sum ≤ (l2.map (fun z => z * z)).sum := by
  induction l1 with
  | nil => intro l2; simpa using sum_sq_nonneg l2
  | cons x xs ih =>
    intro l2
    cases l2 with
    | nil => simp
    | cons y ys =>
      rw [List.zip_cons_cons, List.map_cons, List.map_cons, List.sum_cons,
        List.sum_cons]
      exact add_le_add_left (ih ys) _

theorem ssq_nonneg (x : List ℚ) : 0 ≤ ssq x := sum_sq_nonneg (demean x)

theorem sxy_sq_le (x y : List ℚ) : (sxy x y) ^ 2 ≤ ssq x * ssq y := by
  unfold sxy ssq
  refine le_trans (list_cauchy ((demean x).zip (demean y))) ?_
  exact mul_le_mul (zip_fst_sq_le (demean x) (demean y))
    (zip_snd_sq_le (demean x) (demean y))
    (pairs_snd_sq_nonneg ((demean x).zip (demean y)))
    (sum_sq_nonneg (demean x))

theorem zip_prod_sum_comm (l1 : List ℚ) : ∀ l2 : List ℚ,
    ((l1.zip l2).map (fun q => q.1 * q.2)).sum =
      ((l2.zip l1).map (fun q => q.1 * q.2)).sum := by
  induction l1 with
  | nil => intro l2; cases l2 <;> simp
  | cons x xs ih =>
    intro l2
    cases l2 with
    | nil => simp
    | cons y ys =>
      rw [List.zip_cons_cons, List.zip_cons_cons, List.map_cons, List.map_cons,
        List.sum_cons, List.sum_cons, ih ys]
      ring_nf

theorem sxy_comm (x y : List ℚ) : sxy x y = sxy y x := by
  unfold sxy
  exact zip_prod_sum_comm (demean x) (demean y)

theorem sxy_self (x : List ℚ) : sxy x x = ssq x := by
  unfold sxy ssq
  generalize demean x = l
  induction l with
  | nil => rfl
  | cons z zs ih =>
    rw [List.zip_cons_cons, List.map_cons, List.map_cons, List.sum_cons,
      List.sum_cons, ih]

/-- One entry of pandas `DataFrame.corr()` (`nancorr`): `NaN` — here `none` —
when the divisor `sqrt(ssq x * ssq y)` is zero, else the Pearson coefficient.
The float guard `divisor != 0` holds iff `ssq x * ssq y ≠ 0`, which keeps the
guard decidable. -/
noncomputable def corrEntry (x y : List ℚ) : Option ℝ :=
  if ssq x * ssq y = 0 then none
  else some (((sxy x y : ℚ) : ℝ) / Real.sqrt ((ssq x : ℝ) * (ssq y : ℝ)))

/-- `calculate_correlation_matrix`: `returns_df.corr()`. -/
noncomputable def calculate_correlation_matrix (cols : List (List ℚ)) :
    List (List (Option ℝ)) :=
  cols.map (fun x => cols.map (fun y => corrEntry x y))

theorem corrEntry_comm (x y : List ℚ) : corrEntry x y = corrEntry y x := by
  unfold corrEntry
  rw [sxy_comm y x, mul_comm (ssq y) (ssq x),
    mul_comm ((ssq y : ℚ) : ℝ) ((ssq x : ℚ) : ℝ)]

theorem corrEntry_self (x : List ℚ) (h : ssq x ≠ 0) : corrEntry x x = some 1 := by
  unfold corrEntry
  rw [if_neg (mul_ne_zero h h)]
  congr 1
  rw [sxy_self, Real.sqrt_mul_self (by exact_mod_cast ssq_nonneg x)]
  exact div_self (by exact_mod_cast h)

theorem corrEntry_bound (x y : List ℚ) (v : ℝ) (h : corrEntry x y = some v) :
    -1 ≤ v ∧ v ≤ 1 := by
  unfold corrEntry at h
  by_cases hg : ssq x * ssq y = 0
  · rw [if_pos hg] at h
    cases h
  · rw [if_neg hg] at h
    have hP : (0 : ℝ) < ((ssq x : ℚ) : ℝ) * ((ssq y : ℚ) : ℝ) := by
      have hq : (0 : ℚ) < ssq x * ssq y :=
        lt_of_le_of_ne (mul_nonneg (ssq_nonneg x) (ssq_nonneg y)) (Ne.symm hg)
      exact_mod_cast hq
    have hsq : (((sxy x y : ℚ) : ℝ)) ^ 2 ≤ ((ssq x : ℚ) : ℝ) * ((ssq y : ℚ) : ℝ) := by
      exact_mod_cast sxy_sq_le x y
    have hs : 0 < Real.sqrt (((ssq x : ℚ) : ℝ) * ((ssq y : ℚ) : ℝ)) :=
      Real.sqrt_pos.mpr hP
    have habs : |((sxy x y : ℚ) : ℝ)| ≤
        Real.sqrt (((ssq x : ℚ) : ℝ) * ((ssq y : ℚ) : ℝ)) := by
      rw [← Real.sqrt_sq_eq_abs]
      exact Real.sqrt_le_sqrt hsq
    injection h with h'
    have hv1 : |v| ≤ 1 := by
      rw [← h', abs_div, abs_of_pos hs, div_le_one hs]
      exact habs
    exact abs_le.mp hv1

theorem corr_matrix_entry (cols : List (List ℚ)) (i j : ℕ) :
    ((calculate_correlation_matrix cols)[i]?.bind (fun row => row[j]?)) =
      (cols[i]?).bind (fun x => (cols[j]?).map (fun y => corrEntry x y)) := by
  unfold calculate_correlation_matrix
  rw [List.getElem?_map]
  cases cols[i]? with
  | none => rfl
  | some x => simp [List.getElem?_map]

/-- C3 (corrected).  For Returns Panels in which every column has nonzero
variance, the correlation matrix is square, symmetric, has diagonal exactly 1
and every defined entry in `[-1, 1]`; but for a degenerate zero-variance
column the whole row and column — the diagonal entry included — is `NaN`, not
1.0 (pandas `nancorr` writes `NaN` whenever the divisor is 0). -/
theorem claim3_correlation_amended (cols : List (List ℚ))
    (h : ∀ c ∈ cols, ssq c ≠ 0) :
    (calculate_correlation_matrix cols).length = cols.length ∧
      (∀ row ∈ calculate_correlation_matrix cols, row.length = cols.length) ∧
      (∀ i j : ℕ,
        ((calculate_correlation_matrix cols)[i]?.bind (fun row => row[j]?)) =
          ((calculate_correlation_matrix cols)[j]?.bind (fun row => row[i]?))) ∧
      (∀ c ∈ cols, corrEntry c c = some 1) ∧
      (∀ (x y : List ℚ) (v : ℝ), corrEntry x y = some v → -1 ≤ v ∧ v ≤ 1) := by
  refine ⟨by simp [calculate_correlation_matrix], ?_, ?_, ?_, ?_⟩
  · intro row hrow
    unfold calculate_correlation_matrix at hrow
    obtain ⟨x, _, rfl⟩ := List.mem_map.mp hrow
    simp
  · intro i j
    rw [corr_matrix_entry, corr_matrix_entry]
    cases hx : cols[i]? with
    | none =>
      cases hy : cols[j]? with
      | none => rfl
      | some y => simp
    | some x =>
      cases hy : cols[j]? with
      | none => simp
      | some y => simp [corrEntry_comm x y]
  · intro c hc
    exact corrEntry_self c (h c hc)
  · intro x y v hv
    exact corrEntry_bound x y v hv

/-- C3 counterexample: the one-instrument Returns Panel `[[0, 0]]` (derived
from constant prices) has zero variance, and its correlation matrix is
`[[NaN]]` — the diagonal entry is not 1.0. -/
theorem claim3_degenerate_counterexample :
    calculate_correlation_matrix [[(0 : ℚ), 0]] = [[none]] ∧
      (none : Option ℝ) ≠ some 1 := by
  constructor
  · norm_num [calculate_correlation_matrix, corrEntry, ssq, demean, mean]
  · simp

theorem claim3_witness :
    corrEntry [(0 : ℚ), 1] [(0 : ℚ), 1] = some 1 ∧
      (calculate_correlation_matrix [[(0 : ℚ), 1], [0, 2]]).length = 2 := by
  have h := claim3_correlation_amended [[(0 : ℚ), 1], [0, 2]] ?_
  · exact ⟨h.2.2.2.1 [(0 : ℚ), 1] (by simp), by simpa using h.1⟩
  · intro c hc
    simp only [List.mem_cons, List.not_mem_nil, or_false] at hc
    rcases hc with rfl | rfl
    · norm_num [ssq, demean, mean]
    · norm_num [ssq, demean, mean]

/-- The shape of one lookback period of `calculate_performance_summary`:
a fixed calendar-day offset from the end date, year-to-date, or the
caller-supplied inception start. -/
inductive PeriodSpec
  | days (n : ℤ)
  | ytd
  | inception
deriving DecidableEq

/-- `datetime(end_date.year, 1, 1)` under the integer-day calendar used here
(365-day years); the only property the aggregator relies on is that January 1
of the end date's year is not after the end date. -/
def yearStart (d : ℤ) : ℤ := 365 * (d / 365)

/-- Anchor resolution of `calculate_performance_summary` for one period:
compute the nominal start (clamped to the panel's first date for the
day-offset and YTD periods — the source does not clamp Inception), then take
`prices_df.index[prices_df.index >= period_start][0]`.  A `none` result models
the uncaught `IndexError` of that subscript when no index date is ≥ the
nominal start; `none` is also returned for an empty index, where the source
would already fail at `prices_df.index[-1]`. -/
def resolveAnchor (index : List ℤ) (startDate : ℤ) (p : PeriodSpec) : Option ℤ :=
  match index.head?, index.getLast? with
  | some first, some endd =>
    let nominal : ℤ :=
      match p with
      | .days n => let s := endd - n; if s < first then first else s
      | .ytd => let s := yearStart endd; if s < first then first else s
      | .inception => startDate
    index.find? (fun d => decide (nominal ≤ d))
  | _, _ => none

/-- The seven fixed lookback periods, in the source's order. -/
def periods : List (String × PeriodSpec) :=
  [("1M", PeriodSpec.days 30), ("3M", PeriodSpec.days 90),
   ("YTD", PeriodSpec.ytd), ("1Y", PeriodSpec.days 252),
   ("3Y", PeriodSpec.days 756), ("5Y", PeriodSpec.days 1260),
   ("Inception", PeriodSpec.inception)]

/-- Anchor dates produced by the Performance Window Aggregator, one per
period label. -/
def performanceAnchors (index : List ℤ) (startDate : ℤ) :
    List (String × Option ℤ) :=
  periods.map (fun pr => (pr.1, resolveAnchor index startDate pr.2))

theorem find?_ge_of_exists (index : List ℤ) (nom : ℤ)
    (h : ∃ d ∈ index, nom ≤ d) :
    ∃ a, index.find? (fun d => decide (nom ≤ d)) = some a ∧ a ∈ index := by
  obtain ⟨d, hd, hle⟩ := h
  cases hfind : index.find? (fun d => decide (nom ≤ d)) with
  | none =>
    have := List.find?_eq_none.mp hfind d hd
    simp [hle] at this
  | some a =>
    exact ⟨a, rfl, List.mem_of_find?_eq_some hfind⟩

theorem yearStart_le (d : ℤ) : yearStart d ≤ d := by
  unfold yearStart
  have h1 := Int.emod_nonneg d (by norm_num : (365 : ℤ) ≠ 0)
  have h2 := Int.ediv_add_emod d 365
  omega

theorem resolveAnchor_cons_exists (x : ℤ) (xs : List ℤ) (startDate : ℤ)
    (p : PeriodSpec)
    (hp : match p with
      | .days n => 0 ≤ n
      | .ytd => True
      | .inception => startDate ≤ (x :: xs).getLast (List.cons_ne_nil x xs)) :
    ∃ a, resolveAnchor (x :: xs) startDate p = some a ∧ a ∈ x :: xs := by
  unfold resolveAnchor
  rw [List.head?_cons,
    List.getLast?_eq_getLast (x :: xs) (List.cons_ne_nil x xs)]
  set endd := (x :: xs).getLast (List.cons_ne_nil x xs) with hend
  have hendmem : endd ∈ x :: xs := List.getLast_mem (List.cons_ne_nil x xs)
  cases p with
  | days n =>
    apply find?_ge_of_exists
    by_cases hc : endd - n < x
    · exact ⟨x, by simp, by simp [hc]⟩
    · exact ⟨endd, hendmem, by simp only [if_neg hc]; omega⟩
  | ytd =>
    apply find?_ge_of_exists
    by_cases hc : yearStart endd < x
    · exact ⟨x, by simp, by simp [hc]⟩
    · refine ⟨endd, hendmem, ?_⟩
      simp only [if_neg hc]
      exact yearStart_le endd
  | inception =>
    apply find?_ge_of_exists
    exact ⟨endd, hendmem, hp⟩

/-- C2 (corrected).  For a panel with at least one row, all seven period
labels resolve to an anchor date present in the index — provided the
caller-supplied inception start date is not after the panel's last date.  The
source clamps only the low side: an inception start after the last index date
leaves `prices_df.index >= period_start` all-false and
`index[mask][0]` raises `IndexError`, so the aggregator is not raise-free for
arbitrary caller-supplied start dates. -/
theorem claim2_anchors_amended (index : List ℤ) (startDate : ℤ)
    (hne : index ≠ []) (hs : startDate ≤ index.getLast hne) :
    (performanceAnchors index startDate).length = 7 ∧
      ∀ pr ∈ performanceAnchors index startDate,
        ∃ a, pr.2 = some a ∧ a ∈ index := by
  constructor
  · rfl
  · intro pr hpr
    unfold performanceAnchors at hpr
    obtain ⟨q, hq, rfl⟩ := List.mem_map.mp hpr
    obtain ⟨x, xs, rfl⟩ : ∃ x xs, index = x :: xs := by
      cases index with
      | nil => exact absurd rfl hne
      | cons x xs => exact ⟨x, xs, rfl⟩
    apply resolveAnchor_cons_exists x xs startDate q.2
    have hq7 : q.2 = PeriodSpec.days 30 ∨ q.2 = PeriodSpec.days 90 ∨
        q.2 = PeriodSpec.ytd ∨ q.2 = PeriodSpec.days 252 ∨
        q.2 = PeriodSpec.days 756 ∨ q.2 = PeriodSpec.days 1260 ∨
        q.2 = PeriodSpec.inception := by
      unfold periods at hq
      simp only [List.mem_cons, List.not_mem_nil, or_false] at hq
      rcases hq with rfl | rfl | rfl | rfl | rfl | rfl | rfl <;> simp
    rcases hq7 with h | h | h | h | h | h | h <;> rw [h]
    · norm_num
    · norm_num
    · trivial
    · norm_num
    · norm_num
    · norm_num
    · exact hs

/-- C2 counterexample: a one-row panel (index `[0]`) with a caller-supplied
inception start date `1` later than the last panel date: the all-false mask
makes `index[mask][0]` raise, modelled here by `none`. -/
theorem claim2_inception_counterexample :
    resolveAnchor [0] 1 PeriodSpec.inception = none := by decide

theorem claim2_witness :
    (performanceAnchors [10] 5).length = 7 ∧
      ∀ pr ∈ performanceAnchors [10] 5, ∃ a, pr.2 = some a ∧ a ∈ [10] :=
  claim2_anchors_amended [10] 5 (by decide) (by decide)

/-- The index position `.loc` resolves a date label to: `none` models a
`KeyError`. -/
def idxOf? (d : ℤ) : List ℤ → Option ℕ
  | [] => none
  | x :: xs => if x = d then some 0 else (idxOf? d xs).map (fun k => k + 1)

/-- `calculate_total_return`: `(price[end]/price[start] - 1) * 100` per
instrument; `none` models the `KeyError` that `prices_df.loc[start_date]` or
`prices_df.loc[end_date]` raises when the date is absent from the index.  The
function reads the panel purely, so the panel itself is left unchanged in
every case. -/
def calculate_total_return (index : List ℤ) (cols : List (List ℚ))
    (s e : ℤ) : Option (List ℚ) :=
  match idxOf? s index, idxOf? e index with
  | some i, some j =>
    some (cols.map (fun c => (c.getD j 0 / c.getD i 0 - 1) * 100))
  | _, _ => none

theorem idxOf?_eq_none_iff (d : ℤ) (l : List ℤ) :
    idxOf? d l = none ↔ d ∉ l := by
  induction l with
  | nil => simp [idxOf?]
  | cons x xs ih =>
    unfold idxOf?
    by_cases hx : x = d
    · simp [hx]
    · simp only [if_neg hx, List.mem_cons]
      rw [Option.map_eq_none', ih]
      constructor
      · intro hnot hmem
        rcases hmem with rfl | hmem
        · exact hx rfl
        · exact hnot hmem
      · intro hnot hmem
        exact hnot (Or.inr hmem)

theorem idxOf?_of_sorted (d : ℤ) (l : List ℤ)
    (hsort : List.Pairwise (· < ·) l) : ∀ i : ℕ, l[i]? = some d →
    idxOf? d l = some i := by
  induction l with
  | nil => intro i hi; simp at hi
  | cons x xs ih =>
    intro i hi
    cases i with
    | zero =>
      rw [List.getElem?_cons_zero] at hi
      injection hi with hx
      unfold idxOf?
      rw [if_pos hx]
    | succ j =>
      rw [List.getElem?_cons_succ] at hi
      have hd_mem : d ∈ xs := List.getElem?_mem hi
      have hlt : x < d := (List.pairwise_cons.mp hsort).1 d hd_mem
      unfold idxOf?
      rw [if_neg (ne_of_lt hlt), ih (List.pairwise_cons.mp hsort).2 j hi]
      rfl

/-- C10 (confirmed).  `calculate_total_return` raises a key-lookup error —
modelled by `none` — exactly when the start or end date is absent from the
panel's index (the panel, a pure value here, is unchanged in that case), and
when both dates are present it returns `(price[end]/price[start] - 1) * 100`
per instrument. -/
theorem claim10_total_return_lookup (index : List ℤ) (cols : List (List ℚ))
    (s e : ℤ) (hsort : List.Pairwise (· < ·) index) :
    (calculate_total_return index cols s e = none ↔ s ∉ index ∨ e ∉ index) ∧
      (∀ i j : ℕ, index[i]? = some s → index[j]? = some e →
        calculate_total_return index cols s e =
          some (cols.map (fun c => (c.getD j 0 / c.getD i 0 - 1) * 100))) := by
  constructor
  · constructor
    · intro hnone
      unfold calculate_total_return at hnone
      cases hs : idxOf? s index with
      | none => exact Or.inl ((idxOf?_eq_none_iff s index).mp hs)
      | some i =>
        cases he : idxOf? e index with
        | none => exact Or.inr ((idxOf?_eq_none_iff e index).mp he)
        | some j =>
          rw [hs, he] at hnone
          cases hnone
    · intro hmem
      unfold calculate_total_return
      rcases hmem with hmem | hmem
      · rw [(idxOf?_eq_none_iff s index).mpr hmem]
      · rw [(idxOf?_eq_none_iff e index).mpr hmem]
        cases h2 : idxOf? s index <;> rfl
  · intro i j hi hj
    unfold calculate_total_return
    rw [idxOf?_of_sorted s index hsort i hi, idxOf?_of_sorted e index hsort j hj]

theorem claim10_witness :
    calculate_total_return [0, 5] [[10, 20]] 0 5 = some [100] := by
  have h := (claim10_total_return_lookup [0, 5] [[10, 20]] 0 5 (by decide)).2
    0 1 (by decide) (by decide)
  rw [h]
  norm_num

end Portfolio
